import Mathlib

/-!
Verification of the email-support-system core against its specification.

The Python sources are shallowly embedded:
  * pure functions become Lean functions over `String` / `List Char`
    (a Python `str` is modelled as its character sequence);
  * Python floats carrying exact decimal constants are modelled as `ℚ`;
  * the stateful handler code becomes explicit state passing over an
    in-memory model of the MySQL tables and the in-process dict;
  * external effects (LLM call, SMTP send) become explicit parameters.
All definitions are executable and all predicates decidable.
-/

/-! ## Email classifier (src/services/email_classifier_service.py) -/

/-- EmailCategory enum, from email_classifier_service.py lines 13-23. -/
inductive EmailCategory
  | support_request
  | promotion
  | spam
  | newsletter
  | automated
  | inquiry
  | complaint
  | feedback
  | other
deriving DecidableEq

/-- EmailClassification dataclass, lines 26-36.  `confidence` is an exact
rational standing for the Python float. -/
structure EmailClassification where
  category : EmailCategory
  confidence : ℚ
  priority : ℤ
  should_respond : Bool
  should_delete : Bool
  should_archive : Bool
  reason : String
  suggested_action : String
deriving DecidableEq

/-- A JSON value as produced by `json.loads` for a classifier reply field.
Numeric values are modelled as exact rationals. -/
inductive JVal
  | jstr (s : String)
  | jnum (q : ℚ)
  | jbool (b : Bool)
deriving DecidableEq

/-- A parsed JSON object (the `Dict` returned by
`call_openrouter_structured`): an association list of key/value pairs. -/
def JsonObj : Type := List (String × JVal)

instance : DecidableEq JsonObj := by
  unfold JsonObj
  infer_instance

/-- Key lookup in a parsed JSON object.  `json.loads` keeps the last
duplicate key, so the scan keeps the rightmost binding. -/
def jfind (obj : JsonObj) (key : String) : Option JVal :=
  obj.foldl (fun acc kv => if kv.1 = key then some kv.2 else acc) none

/-- Python `dict.get(key, default)`. -/
def jget (obj : JsonObj) (key : String) (dflt : JVal) : JVal :=
  (jfind obj key).getD dflt

/-- Python `EmailCategory(x)`: succeeds exactly on the nine enum value
strings, otherwise raises `ValueError` (modelled as `none`). -/
def categoryOfVal : JVal → Option EmailCategory
  | JVal.jstr "support_request" => some EmailCategory.support_request
  | JVal.jstr "promotion" => some EmailCategory.promotion
  | JVal.jstr "spam" => some EmailCategory.spam
  | JVal.jstr "newsletter" => some EmailCategory.newsletter
  | JVal.jstr "automated" => some EmailCategory.automated
  | JVal.jstr "inquiry" => some EmailCategory.inquiry
  | JVal.jstr "complaint" => some EmailCategory.complaint
  | JVal.jstr "feedback" => some EmailCategory.feedback
  | JVal.jstr "other" => some EmailCategory.other
  | _ => none

/-- Python `float(x)` on a JSON field value.  Numeric strings are not
modelled and conservatively fail like any other bad input. -/
def pyFloat : JVal → Option ℚ
  | JVal.jnum q => some q
  | JVal.jbool b => some (if b then 1 else 0)
  | JVal.jstr _ => none

/-- Python `int(x)` on a JSON field value; floats truncate toward zero. -/
def pyInt : JVal → Option ℤ
  | JVal.jnum q => some (if 0 ≤ q then ⌊q⌋ else -⌊-q⌋)
  | JVal.jbool b => some (if b then 1 else 0)
  | JVal.jstr _ => none

/-- Python `bool(x)` on a JSON field value (never fails). -/
def pyBool : JVal → Bool
  | JVal.jnum q => q ≠ 0
  | JVal.jbool b => b
  | JVal.jstr s => s ≠ ""

/-- Python `str(x)` on a JSON field value (never fails; non-string
renderings are abstracted). -/
def pyStr : JVal → String
  | JVal.jstr s => s
  | JVal.jbool b => if b then "True" else "False"
  | JVal.jnum _ => "<number>"

/-- The `try` block of `classify_email` (lines 96-106): build an
`EmailClassification` from the parsed JSON object, each field defaulting
individually; any conversion error (`ValueError`) yields `none`. -/
def parseClassification (obj : JsonObj) : Option EmailClassification := do
  let category ← categoryOfVal (jget obj "category" (JVal.jstr "other"))
  let confidence ← pyFloat (jget obj "confidence" (JVal.jnum (1/2)))
  let priority ← pyInt (jget obj "priority" (JVal.jnum 3))
  pure
    { category := category
      confidence := confidence
      priority := priority
      should_respond := pyBool (jget obj "should_respond" (JVal.jbool true))
      should_delete := pyBool (jget obj "should_delete" (JVal.jbool false))
      should_archive := pyBool (jget obj "should_archive" (JVal.jbool false))
      reason := pyStr (jget obj "reason" (JVal.jstr "Classification completed"))
      suggested_action := pyStr (jget obj "suggested_action" (JVal.jstr "Review manually")) }

/-- The fail-safe default classification (lines 110-120). -/
def failsafeClassification : EmailClassification :=
  { category := EmailCategory.other
    confidence := 3/10
    priority := 3
    should_respond := true
    should_delete := false
    should_archive := false
    reason := "Classification failed, defaulting to manual review"
    suggested_action := "Forward for manual review" }

/-- `classify_email` (lines 39-120), abstracted over the outcome of the
LLM call: `none` models a failed call, timeout or invalid JSON
(`call_openrouter_structured` returns `None` in all three cases).  Note
the Python guard `if result:` is falsy for the empty dict as well. -/
def classify_email (llmResult : Option JsonObj) : EmailClassification :=
  match llmResult with
  | some obj =>
      if obj ≠ ([] : JsonObj) then (parseClassification obj).getD failsafeClassification
      else failsafeClassification
  | none => failsafeClassification

/-- `is_spam_or_promotion` (lines 123-133). -/
def is_spam_or_promotion (c : EmailClassification) : Bool :=
  c.category = EmailCategory.spam ∨ c.category = EmailCategory.promotion ∨
    c.category = EmailCategory.newsletter ∨ c.should_delete

/-- `needs_response` (lines 136-138). -/
def needs_response (c : EmailClassification) : Bool :=
  c.should_respond

/-- Body truncation in `classify_email` (lines 56-57):
`body[:1500] + "..." if len(body) > 1500 else body`, on the character
sequence of the body. -/
def truncated_body (body : List Char) : List Char :=
  if 1500 < body.length then body.take 1500 ++ ['.', '.', '.'] else body

/-! ## Claims C2, C7, C10 -/

/-- Helper: a missing key makes `dict.get` return its default. -/
theorem jget_of_none (obj : JsonObj) (key : String) (d : JVal)
    (h : jfind obj key = none) : jget obj key d = d := by
  unfold jget
  rw [h]
  rfl

/-- C2 counterexample: on a failed LLM call the returned reason string is
not the lowercase sentence the claim quotes (the code capitalizes it). -/
theorem C2_counterexample :
    (classify_email none).reason ≠ "classification failed, defaulting to manual review" := by
  decide

/-- C2 (amended): on a failed, timed-out or invalid-JSON LLM call (all
modelled by `none`), and likewise whenever the parsed object fails field
conversion, `classify_email` returns exactly the fail-safe default:
category `other`, confidence 0.3, priority 3, shouldRespond true,
shouldDelete false, shouldArchive false, with reason "Classification
failed, defaulting to manual review" (capital C) — it never fails toward
deletion. -/
theorem C2_failsafe :
    classify_email none = failsafeClassification ∧
    (∀ obj : JsonObj, parseClassification obj = none →
      classify_email (some obj) = failsafeClassification) ∧
    failsafeClassification.category = EmailCategory.other ∧
    failsafeClassification.confidence = 3/10 ∧
    failsafeClassification.priority = 3 ∧
    failsafeClassification.should_respond = true ∧
    failsafeClassification.should_delete = false ∧
    failsafeClassification.should_archive = false ∧
    failsafeClassification.reason = "Classification failed, defaulting to manual review" := by
  refine ⟨rfl, ?_, rfl, rfl, rfl, rfl, rfl, rfl, rfl⟩
  intro obj h
  by_cases hobj : obj = ([] : JsonObj)
  · subst hobj
    rfl
  · simp [classify_email, hobj, h]

/-- Witness for C2 at a concrete malformed object. -/
theorem C2_failsafe_witness :
    classify_email (some [("category", JVal.jstr "bogus")]) = failsafeClassification :=
  C2_failsafe.2.1 [("category", JVal.jstr "bogus")] (by decide)

/-- C10 counterexample: the empty JSON object is falsy in Python, so it
takes the fail-safe path and yields confidence 0.3, not 0.5 as claimed. -/
theorem C10_counterexample :
    (classify_email (some ([] : JsonObj))).confidence ≠ 1/2 := by
  show (3 : ℚ)/10 ≠ 1/2
  norm_num

/-- C10 (amended): for a valid, NON-empty JSON object with all
classification fields missing, each field is defaulted individually
(category other, confidence 0.5, priority 3, should_respond true,
should_delete false, should_archive false), so the result differs from
the fail-safe default; the empty object, being falsy, instead takes the
fail-safe path with confidence 0.3. -/
theorem C10_field_defaults :
    (∀ obj : JsonObj, obj ≠ [] →
      jfind obj "category" = none → jfind obj "confidence" = none →
      jfind obj "priority" = none → jfind obj "should_respond" = none →
      jfind obj "should_delete" = none → jfind obj "should_archive" = none →
      jfind obj "reason" = none → jfind obj "suggested_action" = none →
      classify_email (some obj) =
        { category := EmailCategory.other
          confidence := 1/2
          priority := 3
          should_respond := true
          should_delete := false
          should_archive := false
          reason := "Classification completed"
          suggested_action := "Review manually" }) ∧
    classify_email (some ([] : JsonObj)) = failsafeClassification ∧
    failsafeClassification.confidence = 3/10 := by
  refine ⟨?_, rfl, rfl⟩
  intro obj hne h1 h2 h3 h4 h5 h6 h7 h8
  have hp : parseClassification obj =
      some
        { category := EmailCategory.other
          confidence := 1/2
          priority := 3
          should_respond := true
          should_delete := false
          should_archive := false
          reason := "Classification completed"
          suggested_action := "Review manually" } := by
    unfold parseClassification
    rw [jget_of_none obj "category" (JVal.jstr "other") h1,
      jget_of_none obj "confidence" (JVal.jnum (1/2)) h2,
      jget_of_none obj "priority" (JVal.jnum 3) h3,
      jget_of_none obj "should_respond" (JVal.jbool true) h4,
      jget_of_none obj "should_delete" (JVal.jbool false) h5,
      jget_of_none obj "should_archive" (JVal.jbool false) h6,
      jget_of_none obj "reason" (JVal.jstr "Classification completed") h7,
      jget_of_none obj "suggested_action" (JVal.jstr "Review manually") h8]
    rfl
  simp [classify_email, hne, hp]

/-- Witness for C10 at a concrete one-key object. -/
theorem C10_field_defaults_witness :
    classify_email (some [("note", JVal.jstr "x")]) =
      { category := EmailCategory.other
        confidence := 1/2
        priority := 3
        should_respond := true
        should_delete := false
        should_archive := false
        reason := "Classification completed"
        suggested_action := "Review manually" } := by
  apply C10_field_defaults.1 [("note", JVal.jstr "x")] <;> decide

/-- C7 counterexample: on a 1501-character body, the text placed in the
prompt is NOT exactly the first 1500 characters — the code appends an
ellipsis marker. -/
theorem C7_counterexample :
    truncated_body (List.replicate 1501 'a') ≠ (List.replicate 1501 'a').take 1500 := by
  have h1 : (truncated_body (List.replicate 1501 'a')).length = 1503 := by
    unfold truncated_body
    rw [if_pos (by rw [List.length_replicate]; omega)]
    rw [List.length_append, List.length_take, List.length_replicate]
    simp
  intro h
  rw [h, List.length_take, List.length_replicate] at h1
  omega

/-- C7 (amended): the body text placed in the classifier prompt is the
first 1500 characters of the body FOLLOWED BY the three-character marker
"..." when the body exceeds 1500 characters, and the body unchanged
otherwise; the truncation is silent, deterministic and character-based. -/
theorem C7_truncation (body : List Char) :
    (1500 < body.length → truncated_body body = body.take 1500 ++ ['.', '.', '.']) ∧
    (body.length ≤ 1500 → truncated_body body = body) ∧
    (truncated_body body).length =
      min body.length 1500 + (if 1500 < body.length then 3 else 0) := by
  refine ⟨fun h => ?_, fun h => ?_, ?_⟩
  · simp [truncated_body, h]
  · unfold truncated_body
    rw [if_neg (by omega)]
  · unfold truncated_body
    split_ifs with h
    · simp
      omega
    · simp
      omega

/-- Witness for C7 at a concrete long body. -/
theorem C7_truncation_witness :
    truncated_body (List.replicate 1501 'a') =
      (List.replicate 1501 'a').take 1500 ++ ['.', '.', '.'] :=
  (C7_truncation (List.replicate 1501 'a')).1 (by rw [List.length_replicate]; omega)

/-! ## Ticket store, pending-confirmation coordinator and operator handlers
(src/services/db_service.py, src/services/telegram_service.py,
src/handlers/telegram_handlers.py)

The MySQL tables and the in-process `pending_confirmations` dict are
modelled as association lists keyed by ticket id; `DATETIME` values as
natural-number timestamps.  The SMTP send (`send_response_email`) is an
external effect whose success is an explicit boolean parameter; the mail
is delivered exactly when it reports success. -/

/-- First-match lookup in an association list (keys are unique in every
state built by the operations below, matching both the SQL primary key
and the Python dict). -/
def lookupA {α : Type} : List (String × α) → String → Option α
  | [], _ => none
  | kv :: rest, key => if kv.1 = key then some kv.2 else lookupA rest key

/-- Python dict assignment `d[k] = v`: replace the binding if present,
else append. -/
def setAssoc {α : Type} : List (String × α) → String → α → List (String × α)
  | [], key, v => [(key, v)]
  | kv :: rest, key, v =>
      if kv.1 = key then (key, v) :: rest else kv :: setAssoc rest key v

/-- Python `del d[k]` (guarded by `if k in d`). -/
def eraseAssoc {α : Type} : List (String × α) → String → List (String × α)
  | [], _ => []
  | kv :: rest, key =>
      if kv.1 = key then eraseAssoc rest key else kv :: eraseAssoc rest key

/-- One row of the `tickets` table (the columns the handlers read). -/
structure TicketRow where
  from_email : String
  subject : String
  plain_message : String
  status : String
  response_time : Option Nat
deriving DecidableEq

/-- The mutable state the confirm/reply handlers touch: the `tickets`,
`responses` (append-only) and `drafts` tables, and the in-memory
`pending_confirmations` dict of telegram_service.py line 14. -/
structure SysState where
  tickets : List (String × TicketRow)
  responses : List (String × String)
  drafts : List (String × String)
  pending : List (String × String)
deriving DecidableEq

/-- `get_pending_confirmation` (telegram_service.py lines 17-19). -/
def get_pending_confirmation (st : SysState) (ticket_id : String) : Option String :=
  lookupA st.pending ticket_id

/-- `set_pending_confirmation` (lines 22-24). -/
def set_pending_confirmation (st : SysState) (ticket_id draft : String) : SysState :=
  { st with pending := setAssoc st.pending ticket_id draft }

/-- `clear_pending_confirmation` (lines 27-30). -/
def clear_pending_confirmation (st : SysState) (ticket_id : String) : SysState :=
  { st with pending := eraseAssoc st.pending ticket_id }

/-- `get_draft_response` (db_service.py lines 470-490): the draft row for
the ticket, if any. -/
def get_draft_response (st : SysState) (ticket_id : String) : Option String :=
  lookupA st.drafts ticket_id

/-- `get_ticket` (db_service.py lines 154-223), restricted to the ticket
row itself. -/
def get_ticket (st : SysState) (ticket_id : String) : Option TicketRow :=
  lookupA st.tickets ticket_id

/-- `save_ticket_response` (db_service.py lines 130-152): set the ticket
status to `responded` with the current response time, and insert a row
in `responses` — both in one transaction. -/
def save_ticket_response (st : SysState) (ticket_id response_text : String)
    (now : Nat) : SysState :=
  { st with
    tickets := st.tickets.map fun kv =>
      if kv.1 = ticket_id then
        (kv.1, { kv.2 with status := "responded", response_time := some now })
      else kv
    responses := st.responses ++ [(ticket_id, response_text)] }

/-- Python truthiness of an optional string: `None` and `""` are falsy. -/
def pyTruthy : Option String → Option String
  | some s => if s = "" then none else some s
  | none => none

/-- Draft selection in `handle_confirm` (telegram_handlers.py lines
41-49): the in-memory pending draft if truthy, else the persisted draft
row if truthy. -/
def pickDraft (st : SysState) (ticket_id : String) : Option String :=
  match pyTruthy (get_pending_confirmation st ticket_id) with
  | some d => some d
  | none => pyTruthy (get_draft_response st ticket_id)

/-- The operator-visible outcome of a confirm/reply command. -/
inductive ConfirmOutcome
  | noDraft
  | notFound
  | sendFailed
  | sent
deriving DecidableEq

/-- Result of running a handler: the new state, the emails actually
delivered to customers, and the outcome reported to the operator. -/
structure HandlerResult where
  state : SysState
  delivered : List (String × String)
  outcome : ConfirmOutcome
deriving DecidableEq

/-- Envelope wrapping in `handle_confirm` (telegram_handlers.py line 61). -/
def format_confirm_response (draft : String) : String :=
  "Dear Customer,\n\n" ++ draft ++ "\n\nThanks,\nThe StudyFate Team"

/-- `handle_confirm` (telegram_handlers.py lines 30-74).  `emailOk` is
the return value of `send_response_email`; the email reaches the
customer exactly when it is true.  The handler never inspects the
ticket status, and nothing deletes the persisted draft row. -/
def handle_confirm (st : SysState) (ticket_id : String) (emailOk : Bool)
    (now : Nat) : HandlerResult :=
  match pickDraft st ticket_id with
  | none => ⟨st, [], ConfirmOutcome.noDraft⟩
  | some draft =>
    match get_ticket st ticket_id with
    | none => ⟨st, [], ConfirmOutcome.notFound⟩
    | some t =>
      let formatted := format_confirm_response draft
      if emailOk then
        ⟨clear_pending_confirmation
            (save_ticket_response st ticket_id formatted now) ticket_id,
          [(t.from_email, formatted)], ConfirmOutcome.sent⟩
      else ⟨st, [], ConfirmOutcome.sendFailed⟩

/-- `handle_reply` (telegram_handlers.py lines 174-253).  `processFn`
models `process_with_deepseek` (an external LLM call applied to the
plain message and the operator text); attachment forwarding does not
touch the modelled state and is omitted. -/
def handle_reply (st : SysState) (ticket_id response_text : String)
    (processFn : String → String → String) (emailOk : Bool) (now : Nat) :
    HandlerResult :=
  match get_ticket st ticket_id with
  | none => ⟨st, [], ConfirmOutcome.notFound⟩
  | some t =>
    let processed := processFn t.plain_message response_text
    if emailOk then
      ⟨save_ticket_response st ticket_id processed now,
        [(t.from_email, processed)], ConfirmOutcome.sent⟩
    else ⟨st, [], ConfirmOutcome.sendFailed⟩

/-! ## Claims C1, C3, C9 -/

/-- C1 failing state: a ticket already `responded` (response and
response time populated by an earlier confirm) whose persisted draft row
still exists, because `delete_draft_response` is never invoked. -/
def C1_state : SysState :=
  { tickets := [("TKT-1",
      { from_email := "cust@example.com"
        subject := "s"
        plain_message := "m"
        status := "responded"
        response_time := some 100 })]
    responses := [("TKT-1", "earlier response")]
    drafts := [("TKT-1", "draft body")]
    pending := [] }

/-- C1: the code violates the claim.  Confirming a ticket that is
already `responded` does not fail: the handler never checks the status,
finds the stale persisted draft, delivers a second email, overwrites
`response_time` and inserts a second response row. -/
theorem C1_double_send :
    (handle_confirm C1_state "TKT-1" true 200).outcome = ConfirmOutcome.sent ∧
    (handle_confirm C1_state "TKT-1" true 200).delivered =
      [("cust@example.com", format_confirm_response "draft body")] ∧
    get_ticket (handle_confirm C1_state "TKT-1" true 200).state "TKT-1" =
      some
        { from_email := "cust@example.com"
          subject := "s"
          plain_message := "m"
          status := "responded"
          response_time := some 200 } ∧
    (handle_confirm C1_state "TKT-1" true 200).state.responses =
      [("TKT-1", "earlier response"),
        ("TKT-1", format_confirm_response "draft body")] := by
  decide

/-- C3: if the outbound email send fails, neither handler advances the
ticket to `responded` or persists any response — the whole state is
untouched — no email is delivered, and the operator gets an explicit
non-success outcome. -/
theorem C3_delivery_failure (st : SysState) (ticket_id response_text : String)
    (processFn : String → String → String) (now : Nat) :
    ((handle_confirm st ticket_id false now).state = st ∧
      (handle_confirm st ticket_id false now).delivered = [] ∧
      (handle_confirm st ticket_id false now).outcome ≠ ConfirmOutcome.sent) ∧
    ((handle_reply st ticket_id response_text processFn false now).state = st ∧
      (handle_reply st ticket_id response_text processFn false now).delivered = [] ∧
      (handle_reply st ticket_id response_text processFn false now).outcome ≠
        ConfirmOutcome.sent) := by
  refine ⟨?_, ?_⟩
  · cases hd : pickDraft st ticket_id with
    | none => simp [handle_confirm, hd]
    | some d =>
      cases ht : get_ticket st ticket_id with
      | none => simp [handle_confirm, hd, ht]
      | some t => simp [handle_confirm, hd, ht]
  · cases ht : get_ticket st ticket_id with
    | none => simp [handle_reply, ht]
    | some t => simp [handle_reply, ht]

/-- C9 counterexample: an in-memory draft that is the empty string is
falsy in Python, so the confirm path falls through to the persisted
draft — the in-memory value does not always take precedence. -/
def C9_state : SysState :=
  { tickets := [("TKT-2",
      { from_email := "c2@example.com"
        subject := "s"
        plain_message := "m"
        status := "pending_confirmation"
        response_time := none })]
    responses := []
    drafts := [("TKT-2", "db draft")]
    pending := [("TKT-2", "")] }

/-- C9 counterexample theorem: the pending dict holds a draft for the
ticket, yet confirm selects the persisted draft. -/
theorem C9_counterexample :
    get_pending_confirmation C9_state "TKT-2" = some "" ∧
    pickDraft C9_state "TKT-2" = some "db draft" := by
  decide

/-- C9 (amended): Set/Get/Clear on the pending-confirmation store obey
last-write-wins and clear-to-none, and a NON-EMPTY in-memory draft is
used by the confirm path in preference to any persisted draft (an empty
in-memory draft is falsy and treated as absent). -/
theorem C9_store_laws :
    (∀ (st : SysState) (id d1 d2 : String),
      get_pending_confirmation
        (set_pending_confirmation (set_pending_confirmation st id d1) id d2) id =
        some d2) ∧
    (∀ (st : SysState) (id : String),
      get_pending_confirmation (clear_pending_confirmation st id) id = none) ∧
    (∀ (st : SysState) (id d : String),
      get_pending_confirmation st id = some d → d ≠ "" →
      pickDraft st id = some d) ∧
    (∀ (st : SysState) (id d : String) (t : TicketRow) (now : Nat),
      get_pending_confirmation st id = some d → d ≠ "" →
      get_ticket st id = some t →
      (handle_confirm st id true now).delivered =
        [(t.from_email, format_confirm_response d)]) := by
  have hset : ∀ (l : List (String × String)) (k v : String),
      lookupA (setAssoc l k v) k = some v := by
    intro l k v
    induction l with
    | nil => simp [setAssoc, lookupA]
    | cons kv rest ih =>
      by_cases h : kv.1 = k
      · simp [setAssoc, h, lookupA]
      · simp [setAssoc, h, lookupA, ih]
  have herase : ∀ (l : List (String × String)) (k : String),
      lookupA (eraseAssoc l k) k = none := by
    intro l k
    induction l with
    | nil => simp [eraseAssoc, lookupA]
    | cons kv rest ih =>
      by_cases h : kv.1 = k
      · simp [eraseAssoc, h, ih]
      · simp [eraseAssoc, h, lookupA, ih]
  have hpick : ∀ (st : SysState) (id d : String),
      get_pending_confirmation st id = some d → d ≠ "" →
      pickDraft st id = some d := by
    intro st id d h hne
    simp [pickDraft, h, pyTruthy, hne]
  refine ⟨?_, ?_, hpick, ?_⟩
  · intro st id d1 d2
    exact hset _ id d2
  · intro st id
    exact herase _ id
  · intro st id d t now h hne ht
    simp [handle_confirm, hpick st id d h hne, ht]

/-- C9 witness state: a non-empty in-memory draft alongside a different
persisted draft. -/
def C9_wstate : SysState :=
  { tickets := [("TKT-3",
      { from_email := "c3@example.com"
        subject := "s"
        plain_message := "m"
        status := "pending_confirmation"
        response_time := none })]
    responses := []
    drafts := [("TKT-3", "old persisted draft")]
    pending := [("TKT-3", "mem draft")] }

/-- Witness for C9 at a concrete state. -/
theorem C9_store_laws_witness :
    pickDraft C9_wstate "TKT-3" = some "mem draft" ∧
    (handle_confirm C9_wstate "TKT-3" true 5).delivered =
      [("c3@example.com", format_confirm_response "mem draft")] :=
  ⟨C9_store_laws.2.2.1 C9_wstate "TKT-3" "mem draft" (by decide) (by decide),
    C9_store_laws.2.2.2 C9_wstate "TKT-3" "mem draft"
      { from_email := "c3@example.com"
        subject := "s"
        plain_message := "m"
        status := "pending_confirmation"
        response_time := none } 5 (by decide) (by decide) (by decide)⟩

/-! ## Draft post-processing (src/services/openrouter_service.py,
`clean_ai_response`, lines 214-246)

Texts are modelled as character lists.  Each `re.sub` call is embedded
as a dedicated scanner with exactly the semantics of its pattern; the
recursive scanners that restart after a removal use a fuel argument
(always called with fuel = input length, which each step strictly
consumes) so that every definition is structurally recursive and
kernel-evaluable. -/

/-- Python whitespace (`str.strip` default set and `re` `\s`), ASCII
range: space, tab, newline, carriage return, vertical tab, form feed. -/
def pyWSb (c : Char) : Bool :=
  c = ' ' || c = '\t' || c = '\n' || c = '\r' || c = Char.ofNat 11 || c = Char.ofNat 12

/-- Python `str.lstrip()`. -/
def stripLeftWS (l : List Char) : List Char := l.dropWhile pyWSb

/-- Python `str.rstrip()`. -/
def stripRightWS (l : List Char) : List Char := (l.reverse.dropWhile pyWSb).reverse

/-- Python `str.strip()`. -/
def stripWS (l : List Char) : List Char := stripRightWS (stripLeftWS l)

/-- Case-insensitive prefix test (`re.IGNORECASE`, ASCII case folding). -/
def ciPrefix : List Char → List Char → Bool
  | [], _ => true
  | _ :: _, [] => false
  | c :: ps, d :: ls => (c.toLower = d.toLower) && ciPrefix ps ls

/-- Regex `\w` (ASCII model): letters, digits and underscore. -/
def isWordCharB (c : Char) : Bool := c.isAlphanum || c = '_'

/-- Index of the first occurrence of `p` as a contiguous sublist. -/
def findIdxOfSub (p : List Char) : List Char → Option Nat
  | [] => if p.isEmpty then some 0 else none
  | c :: rest =>
      if List.isPrefixOf p (c :: rest) then some 0
      else (findIdxOfSub p rest).map (· + 1)

/-- Remove the first occurrence of `p` (Python `s.replace(p, "", 1)`). -/
def removeFirstOcc (p : List Char) : List Char → List Char
  | [] => []
  | c :: rest =>
      if List.isPrefixOf p (c :: rest) then (c :: rest).drop p.length
      else c :: removeFirstOcc p rest

/-- Remove every occurrence of `p`, scanning left to right without
overlap (Python `s.replace(p, "")`), fuelled. -/
def removeAllAux (p : List Char) : Nat → List Char → List Char
  | 0, l => l
  | _ + 1, [] => []
  | fuel + 1, c :: rest =>
      if !p.isEmpty && List.isPrefixOf p (c :: rest) then
        removeAllAux p fuel ((c :: rest).drop p.length)
      else c :: removeAllAux p fuel rest

/-- Python `s.replace(p, "")`. -/
def removeAllOcc (p l : List Char) : List Char := removeAllAux p l.length l

/-- Regex literal pieces for the think-block pattern. -/
def thinkOpen : List Char := "<think>".toList

/-- Closing tag of the think-block pattern. -/
def thinkClose : List Char := "</think>".toList

/-- `re.sub(r'<think>.*?</think>', '', s, flags=re.DOTALL)`: at each
opener with a closer somewhere after it, remove through the NEAREST
closer (non-greedy) and continue; an opener without a closer stays. -/
def removeThinkAux : Nat → List Char → List Char
  | 0, l => l
  | _ + 1, [] => []
  | fuel + 1, c :: rest =>
      if List.isPrefixOf thinkOpen (c :: rest) then
        match findIdxOfSub thinkClose ((c :: rest).drop 7) with
        | some j => removeThinkAux fuel (((c :: rest).drop 7).drop (j + 8))
        | none => c :: removeThinkAux fuel rest
      else c :: removeThinkAux fuel rest

/-- Think-block removal (line 217). -/
def removeThink (l : List Char) : List Char := removeThinkAux l.length l

/-- The apostrophe character, used in two of the boilerplate prefixes. -/
def apos : String := String.singleton (Char.ofNat 39)

/-- `prefixes_to_remove` (lines 220-227), in source order. -/
def respBoilerplate : List (List Char) :=
  [("Here" ++ apos ++ "s an improved response:").toList,
    "Here is the improved response:".toList,
    ("Here" ++ apos ++ "s my response:").toList,
    "Response:".toList,
    "---".toList,
    "```".toList]

/-- One iteration of the prefix-stripping loop (lines 229-231):
`if response.strip().startswith(prefix): response = response.replace(prefix, "", 1).strip()`. -/
def stripOneBoiler (resp : List Char) (p : List Char) : List Char :=
  if List.isPrefixOf p (stripWS resp) then stripWS (removeFirstOcc p resp) else resp

/-- The whole prefix loop. -/
def stripBoilers (resp : List Char) : List Char :=
  respBoilerplate.foldl stripOneBoiler resp

/-- `re.sub(r'^Dear Customer,?\s*', '', s, flags=re.IGNORECASE)` (line 237). -/
def stripDearCustomer (l : List Char) : List Char :=
  if ciPrefix "Dear Customer".toList l then
    let r1 := l.drop 13
    let r2 := match r1 with
      | ',' :: r => r
      | _ => r1
    r2.dropWhile pyWSb
  else l

/-- `re.sub(r'^<kw>\s+\w+,?\s*', '', s, flags=re.IGNORECASE)`
(lines 238-241; `\s` and `\w` are disjoint character classes, so the
greedy runs are exact). -/
def stripGreeting (kw : List Char) (l : List Char) : List Char :=
  if ciPrefix kw l then
    let r1 := l.drop kw.length
    if (r1.takeWhile pyWSb).isEmpty then l
    else
      let r2 := r1.dropWhile pyWSb
      if (r2.takeWhile isWordCharB).isEmpty then l
      else
        let r3 := r2.dropWhile isWordCharB
        let r4 := match r3 with
          | ',' :: r => r
          | _ => r3
        r4.dropWhile pyWSb
  else l

/-- Match of `Thanks,?\s*The StudyFate Team\s*$` (case-insensitive,
no MULTILINE) starting at the head of `l`: the remainder after the
brand line must be pure whitespace for `\s*$` to reach the end. -/
def thanksSigAt (l : List Char) : Bool :=
  ciPrefix "Thanks".toList l &&
    (let r1 := l.drop 6
     let r2 := match r1 with
       | ',' :: r => r
       | _ => r1
     let r3 := r2.dropWhile pyWSb
     ciPrefix "The StudyFate Team".toList r3 && (r3.drop 18).all pyWSb)

/-- `re.sub(r'Thanks,?\s*The StudyFate Team\s*$', '', s, flags=re.IGNORECASE)`
(line 242): drop everything from the first position where the pattern
matches through the end. -/
def stripThanksSig : List Char → List Char
  | [] => []
  | c :: rest => if thanksSigAt (c :: rest) then [] else c :: stripThanksSig rest

/-- Length of a match of `<kw>,?\s*.*$` at the head of `l` (the `$` of a
MULTILINE pattern always succeeds at the end of the `.*` run). -/
def sigLineMatchLen (kw : List Char) (l : List Char) : Option Nat :=
  if ciPrefix kw l then
    let r1 := l.drop kw.length
    let cn : Nat := match r1 with
      | ',' :: _ => 1
      | _ => 0
    let r2 := r1.drop cn
    let ws := r2.takeWhile pyWSb
    let ln := (r2.drop ws.length).takeWhile (fun c => c ≠ '\n')
    some (kw.length + cn + ws.length + ln.length)
  else none

/-- `re.sub(r'<kw>,?\s*.*$', '', s, flags=re.IGNORECASE | re.MULTILINE)`
(lines 243-244), all occurrences, fuelled. -/
def removeSigAux (kw : List Char) : Nat → List Char → List Char
  | 0, l => l
  | _ + 1, [] => []
  | fuel + 1, c :: rest =>
      match sigLineMatchLen kw (c :: rest) with
      | some n => removeSigAux kw fuel ((c :: rest).drop n)
      | none => c :: removeSigAux kw fuel rest

/-- Signature-line removal for a given keyword. -/
def removeSigLines (kw : String) (l : List Char) : List Char :=
  removeSigAux kw.toList l.length l

/-- `clean_ai_response` (lines 214-246), step for step in source order. -/
def clean_ai_response (resp : List Char) : List Char :=
  let r := removeThink resp
  let r := stripBoilers r
  let r := removeAllOcc "---".toList r
  let r := removeAllOcc "```".toList r
  let r := stripDearCustomer r
  let r := stripGreeting "Hello".toList r
  let r := stripGreeting "Hi".toList r
  let r := stripGreeting "Dear".toList r
  let r := stripGreeting "Hey".toList r
  let r := stripThanksSig r
  let r := removeSigLines "Best regards" r
  let r := removeSigLines "Sincerely" r
  stripWS r

/-! ## Claim C8 -/

set_option maxRecDepth 100000

/-- The exact model output the claim fixes. -/
def C8_input : List Char :=
  ("Here" ++ apos ++
    "s an improved response:\nDear Customer,\n\nYour order ships Monday.\n\nThanks,\nThe Brand Team").toList

/-- C8 counterexample: on the claimed input the cleaned draft is NOT
"Your order ships Monday." — the trailing signature survives, because
the code only strips the literal brand signature "The StudyFate Team",
and the claimed input signs off as "The Brand Team". -/
theorem C8_counterexample :
    clean_ai_response C8_input ≠ "Your order ships Monday.".toList ∧
    clean_ai_response C8_input =
      "Your order ships Monday.\n\nThanks,\nThe Brand Team".toList := by
  constructor
  · decide
  · decide

/-- The same model output with the signature brand the code actually
recognizes. -/
def C8_fixed_input : List Char :=
  ("Here" ++ apos ++
    "s an improved response:\nDear Customer,\n\nYour order ships Monday.\n\nThanks,\nThe StudyFate Team").toList

/-- C8 (amended): draft post-processing on the model output whose
signature is the code's own brand line "Thanks,\nThe StudyFate Team"
yields exactly the cleaned draft "Your order ships Monday." with all
boilerplate stripped and no residual blank lines at the edges; a foreign
brand signature such as "The Brand Team" is retained. -/
theorem C8_cleaned :
    clean_ai_response C8_fixed_input = "Your order ships Monday.".toList := by
  decide

/-! ## Knowledge retrieval engine — search (src/services/rag_service.py,
`search` lines 207-244, `_extract_keywords` lines 246-270,
`_score_chunk` lines 272-286)

Scores are exact rationals (Python floats here only ever hold sums of
halves divided by small integers).  Python `list.sort(key=score,
reverse=True)` is a stable descending sort; it is embedded as insertion
sort with the relation "left score at least right score", which is
extensionally the unique stable descending sort — the stability theorem
below (part of C4) justifies the identification. -/

/-- Python `str.lower()` (ASCII model). -/
def lowerL (l : List Char) : List Char := l.map Char.toLower

/-- Membership in `[a-z]`. -/
def isLowerAZ (c : Char) : Bool := 'a' ≤ c && c ≤ 'z'

/-- Split into maximal runs of `\w` characters, accumulator reversed. -/
def tokensAux : List Char → List Char → List (List Char)
  | [], cur => if cur.isEmpty then [] else [cur.reverse]
  | c :: rest, cur =>
      if isWordCharB c then tokensAux rest (c :: cur)
      else if cur.isEmpty then tokensAux rest []
      else cur.reverse :: tokensAux rest []

/-- Maximal word-character runs of a text. -/
def wordRuns (l : List Char) : List (List Char) := tokensAux l []

/-- `re.findall(r'\b[a-z]+\b', text)`: the maximal `\w`-runs consisting
solely of lowercase letters (a run containing a digit, underscore or
non-lowercase letter has no word boundary inside it, so it contributes
nothing). -/
def azWords (l : List Char) : List (List Char) :=
  (wordRuns l).filter fun t => t.all isLowerAZ

/-- The stop-word set of `_extract_keywords` (lines 249-262). -/
def stop_words : List String :=
  ["the", "a", "an", "is", "are", "was", "were", "be", "been", "being",
    "have", "has", "had", "do", "does", "did", "will", "would", "could",
    "should", "may", "might", "must", "can", "to", "of", "in", "for",
    "on", "with", "at", "by", "from", "as", "into", "through", "during",
    "before", "after", "above", "below", "between", "under", "again",
    "further", "then", "once", "here", "there", "when", "where", "why",
    "how", "all", "each", "few", "more", "most", "other", "some", "such",
    "no", "nor", "not", "only", "own", "same", "so", "than", "too", "very",
    "just", "and", "but", "if", "or", "because", "until", "while", "this",
    "that", "these", "those", "what", "which", "who", "whom", "i", "you",
    "he", "she", "it", "we", "they", "me", "him", "her", "us", "them", "my",
    "your", "his", "its", "our", "their", "please", "help", "need", "want"]

/-- The stop words as character lists. -/
def stopWordsL : List (List Char) := stop_words.map String.toList

/-- `_extract_keywords` (lines 246-270): tokenize, drop stop words and
words of length at most 2. -/
def extract_keywords (text : List Char) : List (List Char) :=
  (azWords text).filter fun w => !stopWordsL.contains w && 2 < w.length

/-- Python substring test `p in l`. -/
def isSubL (p : List Char) : List Char → Bool
  | [] => p.isEmpty
  | c :: rest => List.isPrefixOf p (c :: rest) || isSubL p rest

/-- A `\b` boundary against the character on the far side (keywords are
letter runs, so the near side is always a word character). -/
def boundaryB : Option Char → Bool
  | none => true
  | some c => !isWordCharB c

/-- Occurrence of `p` at the head of `l` with a `\b` boundary after it. -/
def wordAt (p l : List Char) : Bool :=
  List.isPrefixOf p l &&
    (match l.drop p.length with
     | [] => true
     | c :: _ => !isWordCharB c)

/-- Scan for `re.search(rf'\b{p}\b', l)`, carrying the previous character
for the left boundary. -/
def wordSearchAux (p : List Char) : Option Char → List Char → Bool
  | prev, [] => boundaryB prev && wordAt p []
  | prev, c :: rest => (boundaryB prev && wordAt p (c :: rest)) || wordSearchAux p (some c) rest

/-- `re.search(rf'\b{re.escape(keyword)}\b', chunk_text)` as a boolean
(keywords are nonempty lowercase-letter runs). -/
def hasWordMatch (p l : List Char) : Bool := wordSearchAux p none l

/-- `_score_chunk` (lines 272-286): each keyword occurring as a
substring counts 1, plus 0.5 more if it also occurs as a whole word;
the total is divided by the number of keywords. -/
def score_chunk (chunk_text : List Char) (keywords : List (List Char)) : ℚ :=
  if keywords.isEmpty then 0
  else
    (keywords.foldl
      (fun acc kw =>
        if isSubL kw chunk_text then
          if hasWordMatch kw chunk_text then acc + 1 + 1/2 else acc + 1
        else acc) 0) / (keywords.length : ℚ)

/-- DocumentChunk dataclass (rag_service.py lines 14-20); the constant
`metadata` dict is omitted. -/
structure DocumentChunk where
  content : List Char
  source : String
  chunk_id : Nat
deriving DecidableEq

/-- The descending-score ordering used by
`scored_chunks.sort(key=lambda x: x[1], reverse=True)`. -/
def rDesc (a b : DocumentChunk × ℚ) : Prop := b.2 ≤ a.2

instance : DecidableRel rDesc := fun a b => inferInstanceAs (Decidable (b.2 ≤ a.2))

instance : IsTotal (DocumentChunk × ℚ) rDesc := ⟨fun a b => le_total b.2 a.2⟩

instance : IsTrans (DocumentChunk × ℚ) rDesc := ⟨fun _ _ _ hab hbc => le_trans hbc hab⟩

/-- Python `list.sort(key=lambda x: x[1], reverse=True)` — documented
stable, embedded as the (stable) insertion sort for `rDesc`. -/
def sortScoredDesc (l : List (DocumentChunk × ℚ)) : List (DocumentChunk × ℚ) :=
  List.insertionSort rDesc l

/-- `search` (lines 207-244), over an explicit chunk list: score every
chunk (contents lower-cased), keep positive scores in original order,
sort stably by descending score, return the first `top_k` chunks. -/
def search (chunks : List DocumentChunk) (query : List Char) (top_k : Nat) :
    List DocumentChunk :=
  let keywords := extract_keywords (lowerL query)
  let scored := chunks.filterMap fun c =>
    let s := score_chunk (lowerL c.content) keywords
    if 0 < s then some (c, s) else none
  ((sortScoredDesc scored).take top_k).map Prod.fst

/-! ## Claim C4 -/

/-- The scoring loop of `_score_chunk` equals the closed formula:
substring count plus half the whole-word count. -/
theorem score_fold (text : List Char) (kws : List (List Char)) (a : ℚ) :
    kws.foldl
      (fun acc kw =>
        if isSubL kw text then
          if hasWordMatch kw text then acc + 1 + 1/2 else acc + 1
        else acc) a =
      a + ((kws.filter fun k => isSubL k text).length : ℚ) +
        (1/2) * ((kws.filter fun k => isSubL k text && hasWordMatch k text).length : ℚ) := by
  induction kws generalizing a with
  | nil => simp
  | cons k ks ih =>
    simp only [List.foldl_cons, List.filter_cons]
    by_cases h1 : isSubL k text
    · by_cases h2 : hasWordMatch k text
      · rw [if_pos h1, if_pos h2, ih]
        simp [h1, h2]
        ring
      · rw [if_pos h1, if_neg h2, ih]
        simp [h1, h2]
        ring
    · rw [if_neg h1, ih]
      simp [h1]

/-- Inserting an element into a list keeps the filtered equal-score
subsequence intact: the element lands before every element of equal
score already present only if it was not passed over, and `orderedInsert
rDesc` passes over exactly the elements of strictly larger score. -/
theorem filter_orderedInsert (x : DocumentChunk × ℚ) (l : List (DocumentChunk × ℚ)) (s : ℚ) :
    (List.orderedInsert rDesc x l).filter (fun p => p.2 = s) =
      if x.2 = s then x :: l.filter (fun p => p.2 = s)
      else l.filter (fun p => p.2 = s) := by
  induction l with
  | nil =>
    by_cases hx : x.2 = s <;> simp [List.orderedInsert, hx]
  | cons b bs ih =>
    simp only [List.orderedInsert]
    by_cases hr : rDesc x b
    · rw [if_pos hr]
      by_cases hx : x.2 = s <;> simp [List.filter_cons, hx]
    · rw [if_neg hr]
      by_cases hb : b.2 = s
      · have hx : ¬ x.2 = s := by
          intro he
          exact hr (le_of_eq (by rw [hb, he]))
        simp [List.filter_cons, hb, hx, ih]
      · by_cases hx : x.2 = s <;> simp [List.filter_cons, hb, hx, ih]

/-- Stability of the embedded sort: for every score value, sorting
preserves the original relative order of the chunks having that score. -/
theorem filter_sortScoredDesc (l : List (DocumentChunk × ℚ)) (s : ℚ) :
    (sortScoredDesc l).filter (fun p => p.2 = s) = l.filter (fun p => p.2 = s) := by
  induction l with
  | nil => rfl
  | cons x xs ih =>
    show (List.orderedInsert rDesc x (sortScoredDesc xs)).filter _ = _
    rw [filter_orderedInsert]
    by_cases hx : x.2 = s <;> simp [List.filter_cons, hx, ih]

/-- Every scored pair carries exactly the score of its chunk, and only
positive scores are kept. -/
theorem mem_scored_snd (chunks : List DocumentChunk) (kws : List (List Char))
    (p : DocumentChunk × ℚ)
    (hp : p ∈ chunks.filterMap fun c =>
      let s := score_chunk (lowerL c.content) kws
      if 0 < s then some (c, s) else none) :
    p.2 = score_chunk (lowerL p.1.content) kws ∧ 0 < p.2 := by
  rcases List.mem_filterMap.1 hp with ⟨c, _, hc⟩
  dsimp only at hc
  split at hc
  · rcases Option.some.inj hc with rfl
    exact ⟨rfl, by assumption⟩
  · exact absurd hc (by simp)

/-- C4: `search` ranks chunks exactly as claimed.  (1) each chunk scores
as (number of keywords occurring as substrings of the lower-cased chunk,
plus a 0.5 bonus per keyword also matching as a whole word) divided by
the number of query keywords; (2) zero-scoring chunks are excluded;
(3) at most `top_k` results; (4) results are sorted descending by score;
(5) the sort is stable, so ties keep original chunk order. -/
theorem C4_search_ranking :
    (∀ (text : List Char) (kws : List (List Char)), kws ≠ [] →
      score_chunk text kws =
        (((kws.filter fun k => isSubL k text).length : ℚ) +
          (1/2) * ((kws.filter fun k => isSubL k text && hasWordMatch k text).length : ℚ)) /
          (kws.length : ℚ)) ∧
    (∀ (chunks : List DocumentChunk) (query : List Char) (top_k : Nat),
      ∀ c ∈ search chunks query top_k,
        0 < score_chunk (lowerL c.content) (extract_keywords (lowerL query))) ∧
    (∀ (chunks : List DocumentChunk) (query : List Char) (top_k : Nat),
      (search chunks query top_k).length ≤ top_k) ∧
    (∀ (chunks : List DocumentChunk) (query : List Char) (top_k : Nat),
      (search chunks query top_k).Pairwise fun a b =>
        score_chunk (lowerL b.content) (extract_keywords (lowerL query)) ≤
          score_chunk (lowerL a.content) (extract_keywords (lowerL query))) ∧
    (∀ (l : List (DocumentChunk × ℚ)) (s : ℚ),
      (sortScoredDesc l).filter (fun p => p.2 = s) = l.filter (fun p => p.2 = s)) := by
  refine ⟨?_, ?_, ?_, ?_, filter_sortScoredDesc⟩
  · intro text kws h
    unfold score_chunk
    rw [if_neg (by simp [List.isEmpty_iff, h]), score_fold]
    rw [zero_add]
  · intro chunks query top_k c hc
    simp only [search] at hc
    rcases List.mem_map.1 hc with ⟨p, hp, rfl⟩
    have hp2 := List.mem_of_mem_take hp
    have hp3 := (List.perm_insertionSort rDesc _).mem_iff.mp hp2
    have hps := mem_scored_snd chunks _ p hp3
    exact hps.1 ▸ hps.2
  · intro chunks query top_k
    simp only [search, List.length_map, List.length_take]
    omega
  · intro chunks query top_k
    simp only [search]
    rw [List.pairwise_map]
    have hs : List.Pairwise rDesc (sortScoredDesc
        (chunks.filterMap fun c =>
          let s := score_chunk (lowerL c.content) (extract_keywords (lowerL query))
          if 0 < s then some (c, s) else none)) :=
      List.sorted_insertionSort rDesc _
    have ht := hs.sublist (List.take_sublist top_k _)
    refine List.Pairwise.imp_of_mem ?_ ht
    intro a b ha hb hab
    have ha2 := mem_scored_snd chunks _ a
      ((List.perm_insertionSort rDesc _).mem_iff.mp (List.mem_of_mem_take ha))
    have hb2 := mem_scored_snd chunks _ b
      ((List.perm_insertionSort rDesc _).mem_iff.mp (List.mem_of_mem_take hb))
    rw [← ha2.1, ← hb2.1]
    exact hab

/-- A knowledge chunk for the C4 witness. -/
def chunkA : DocumentChunk :=
  { content := "our refund policy is simple".toList
    source := "refund.md"
    chunk_id := 0 }

/-- Score of the witness chunk against the witness keywords. -/
theorem chunkA_score :
    score_chunk (lowerL chunkA.content) ["refund".toList, "policy".toList] = 3/2 := by
  unfold score_chunk
  rw [if_neg (by decide)]
  simp only [List.foldl_cons, List.foldl_nil]
  rw [if_pos (by decide), if_pos (by decide), if_pos (by decide), if_pos (by decide)]
  norm_num

/-- The witness chunk is returned by the witness search. -/
theorem chunkA_mem_search :
    chunkA ∈ search [chunkA] "refund policy".toList 3 := by
  have hk : extract_keywords (lowerL "refund policy".toList) =
      ["refund".toList, "policy".toList] := by decide
  simp only [search, hk, List.filterMap_cons, List.filterMap_nil, chunkA_score]
  rw [if_pos (by norm_num)]
  simp [sortScoredDesc, List.insertionSort, List.orderedInsert]

/-- Witness for C4 at a concrete corpus and query. -/
theorem C4_search_ranking_witness :
    score_chunk "our refund policy is simple".toList
        ["refund".toList, "policy".toList] =
      (((["refund".toList, "policy".toList].filter fun k =>
          isSubL k "our refund policy is simple".toList).length : ℚ) +
        (1/2) * ((["refund".toList, "policy".toList].filter fun k =>
          isSubL k "our refund policy is simple".toList &&
            hasWordMatch k "our refund policy is simple".toList).length : ℚ)) /
        ((["refund".toList, "policy".toList] : List (List Char)).length : ℚ) ∧
    0 < score_chunk (lowerL chunkA.content)
        (extract_keywords (lowerL "refund policy".toList)) :=
  ⟨C4_search_ranking.1 "our refund policy is simple".toList
      ["refund".toList, "policy".toList] (by decide),
    C4_search_ranking.2.1 [chunkA] "refund policy".toList 3 chunkA chunkA_mem_search⟩

/-! ## Knowledge retrieval engine — chunking (src/services/rag_service.py,
`_chunk_text` lines 151-205)

`RAG_CHUNK_SIZE` and `RAG_CHUNK_OVERLAP` (settings.py lines 34-35, env
defaults 500/50) appear as the parameters `S` and `O`.  The regex split
`re.split(r'\n\s*\n', text)` is embedded operationally: a separator
match starts at a newline and extends through the last newline of the
maximal whitespace run that follows (the greedy `\s*` backtracks to
leave a final `\n`). -/

/-- Index of the last newline of a whitespace run. -/
def lastNLIdx (w : List Char) : Option Nat :=
  (w.reverse.findIdx? (fun c => c = '\n')).map (fun k => w.length - 1 - k)

/-- Length of a `\n\s*\n` match starting at the head, if any. -/
def sepMatchLen : List Char → Option Nat
  | [] => none
  | c :: rest =>
      if c = '\n' then
        match lastNLIdx (rest.takeWhile pyWSb) with
        | some j => some (j + 2)
        | none => none
      else none

/-- `re.split(r'\n\s*\n', text)`: scan left to right, cutting at each
separator match; fuelled (each step consumes at least one character). -/
def splitParasAux : Nat → List Char → List Char → List (List Char)
  | 0, acc, l => [acc.reverse ++ l]
  | _ + 1, acc, [] => [acc.reverse]
  | fuel + 1, acc, c :: rest =>
      match sepMatchLen (c :: rest) with
      | some n => acc.reverse :: splitParasAux fuel [] ((c :: rest).drop n)
      | none => splitParasAux fuel (c :: acc) rest

/-- The paragraph split of `_chunk_text` line 161. -/
def splitParas (l : List Char) : List (List Char) :=
  splitParasAux (l.length + 1) [] l

/-- The `"\n\n"` joiner used when accumulating paragraphs. -/
def sepNN : List Char := ['\n', '\n']

/-- Python `s[-n:]` for `n > 0` (and `s[len(s):] = ""` at `n = 0`, which
the code never takes — overlap slicing is guarded by `O > 0`). -/
def takeRightL (n : Nat) (l : List Char) : List Char := l.drop (l.length - n)

/-- The accumulation loop of `_chunk_text` (lines 163-203), collecting
chunk contents in order: paragraphs are stripped and empty ones skipped;
when the next paragraph would push the buffer past `S` the buffer is
emitted (stripped) and reseeded with its trailing `O` characters plus
the paragraph; the final non-empty buffer is emitted last. -/
def chunkAux (S O : Nat) : List (List Char) → List Char → List (List Char)
  | [], cur => if stripWS cur = [] then [] else [stripWS cur]
  | para :: ps, cur =>
      if stripWS para = [] then chunkAux S O ps cur
      else if S < cur.length + (stripWS para).length then
        if cur = [] then chunkAux S O ps (stripWS para)
        else
          stripWS cur ::
            chunkAux S O ps
              (if 0 < O then takeRightL O cur ++ sepNN ++ stripWS para
               else stripWS para)
      else if cur = [] then chunkAux S O ps (stripWS para)
      else chunkAux S O ps (cur ++ sepNN ++ stripWS para)

/-- `_chunk_text`, contents only. -/
def chunkContents (S O : Nat) (text : List Char) : List (List Char) :=
  chunkAux S O (splitParas (stripWS text)) []

/-- `_chunk_text` (lines 151-205): one `DocumentChunk` per emitted
buffer, `chunk_id` counting emissions from 0 (the constant metadata
dict is omitted). -/
def chunk_text (S O : Nat) (text : List Char) (source : String) :
    List DocumentChunk :=
  (chunkContents S O text).enum.map fun p =>
    { content := p.2, source := source, chunk_id := p.1 }

/-- The stripped non-empty paragraphs of a document. -/
def parasOf (text : List Char) : List (List Char) :=
  ((splitParas (stripWS text)).map stripWS).filter fun p => !p.isEmpty

/-- Concatenation of paragraphs, each preceded by a blank line. -/
def sepJoin (qs : List (List Char)) : List Char :=
  qs.foldr (fun p acc => sepNN ++ p ++ acc) []

/-- The normalized document text: its stripped non-empty paragraphs
joined by blank lines.  Chunk contents are substrings of this text (not
of the raw text, whose paragraph separators may carry extra
whitespace). -/
def normText (text : List Char) : List Char :=
  match parasOf text with
  | [] => []
  | p :: ps => p ++ sepJoin ps

/-- The longest stripped paragraph length of a document. -/
def maxParaLen (text : List Char) : Nat :=
  ((parasOf text).map List.length).foldr max 0

/-! ## Claims C5 and C6 — counterexamples -/

/-- C5 counterexample: with S=12, O=4 on "aaa\n\nbb\n\ncccccc", the first
chunk closes as the buffer "aaa\n\nbb" whose trailing 4 characters are
"\n\nbb"; the seeded overlap is stripped of its leading blank line when
the next chunk is emitted, so the second chunk starts with "bb", not
with the trailing 4 characters of the first chunk. -/
theorem C5_counterexample :
    chunkContents 12 4 "aaa\n\nbb\n\ncccccc".toList =
      ["aaa\n\nbb".toList, "bb\n\ncccccc".toList] ∧
    ¬ takeRightL 4 "aaa\n\nbb".toList <+: "bb\n\ncccccc".toList := by
  constructor
  · decide
  · decide

/-- C6 counterexample: with S=5, O=1 on "ab\n \ncd" the single produced
chunk is "ab\n\ncd": its length 6 exceeds the chunk size 5, and it is
not a substring of the source text (whose paragraph separator is
"\n \n", re-joined as "\n\n"). -/
theorem C6_counterexample :
    chunkContents 5 1 "ab\n \ncd".toList = ["ab\n\ncd".toList] ∧
    ¬ "ab\n\ncd".toList <:+: "ab\n \ncd".toList ∧
    5 < ("ab\n\ncd".toList).length := by
  refine ⟨by decide, by decide, by decide⟩

/-! ## Claims C5 and C6 — buffer invariants of the chunking loop -/

/-- A buffer (or paragraph) ends in a non-whitespace character. -/
def endsNW (l : List Char) : Prop :=
  ∃ c, l.getLast? = some c ∧ pyWSb c = false

/-- `stripRightWS` is Mathlib's `rdropWhile`, definitionally. -/
theorem stripRightWS_eq_rdrop (l : List Char) :
    stripRightWS l = l.rdropWhile pyWSb := rfl

/-- Left stripping yields a suffix. -/
theorem stripLeftWS_suffix (l : List Char) : stripLeftWS l <:+ l :=
  List.dropWhile_suffix pyWSb

/-- The head surviving a `dropWhile` fails the predicate. -/
theorem head?_dropWhile_not (p : Char → Bool) :
    ∀ (l : List Char) (c : Char), (l.dropWhile p).head? = some c → p c = false
  | [], c, h => by simp [List.dropWhile] at h
  | a :: l, c, h => by
    by_cases hpa : p a
    · rw [List.dropWhile_cons, if_pos hpa] at h
      exact head?_dropWhile_not p l c h
    · rw [List.dropWhile_cons, if_neg hpa] at h
      simp only [List.head?_cons, Option.some.injEq] at h
      subst h
      exact Bool.eq_false_iff.mpr hpa

/-- A nonempty suffix keeps the last element. -/
theorem getLast?_of_suffix {l₁ l₂ : List Char} (h : l₁ <:+ l₂) (hne : l₁ ≠ []) :
    l₂.getLast? = l₁.getLast? := by
  obtain ⟨t, rfl⟩ := h
  exact List.getLast?_append_of_ne_nil t hne

/-- A nonempty prefix keeps the head. -/
theorem head?_mono {l₁ l₂ : List Char} (h : l₁ <+: l₂) {c : Char}
    (hc : l₁.head? = some c) : l₂.head? = some c := by
  obtain ⟨t, rfl⟩ := h
  cases l₁ with
  | nil => simp at hc
  | cons a s =>
    simp only [List.head?_cons, Option.some.injEq] at hc
    simp [hc]

/-- An ends-non-whitespace list is nonempty. -/
theorem endsNW.ne_nil {l : List Char} (h : endsNW l) : l ≠ [] := by
  obtain ⟨c, hc, _⟩ := h
  intro he
  subst he
  simp at hc

/-- Right stripping fixes a list that ends in non-whitespace. -/
theorem stripRightWS_of_endsNW {l : List Char} (h : endsNW l) :
    stripRightWS l = l := by
  rw [stripRightWS_eq_rdrop, List.rdropWhile_eq_self_iff]
  intro hl
  obtain ⟨c, hc, hcw⟩ := h
  rw [List.getLast?_eq_getLast l hl, Option.some.injEq] at hc
  rw [hc]
  simp [hcw]

/-- Left stripping keeps something when the list ends in non-whitespace. -/
theorem stripLeftWS_ne_nil_of_endsNW {l : List Char} (h : endsNW l) :
    stripLeftWS l ≠ [] := by
  obtain ⟨c, hc, hcw⟩ := h
  intro he
  have hw := (List.dropWhile_eq_nil_iff).mp he c (List.mem_of_mem_getLast? hc)
  rw [hw] at hcw
  exact Bool.noConfusion hcw

/-- Left stripping preserves the non-whitespace last character. -/
theorem endsNW_stripLeftWS {l : List Char} (h : endsNW l) :
    endsNW (stripLeftWS l) := by
  obtain ⟨c, hc, hcw⟩ := h
  refine ⟨c, ?_, hcw⟩
  rw [← getLast?_of_suffix (stripLeftWS_suffix l)
    (stripLeftWS_ne_nil_of_endsNW ⟨c, hc, hcw⟩)]
  exact hc

/-- On a list ending in non-whitespace, `strip` only strips the left. -/
theorem stripWS_of_endsNW {l : List Char} (h : endsNW l) :
    stripWS l = stripLeftWS l := by
  unfold stripWS
  exact stripRightWS_of_endsNW (endsNW_stripLeftWS h)

/-- On a list ending in non-whitespace, `strip` yields a suffix. -/
theorem stripWS_suffix_of_endsNW {l : List Char} (h : endsNW l) :
    stripWS l <:+ l := by
  rw [stripWS_of_endsNW h]
  exact List.dropWhile_suffix pyWSb

/-- On a list ending in non-whitespace, `strip` is nonempty. -/
theorem stripWS_ne_nil_of_endsNW {l : List Char} (h : endsNW l) :
    stripWS l ≠ [] := by
  rw [stripWS_of_endsNW h]
  exact stripLeftWS_ne_nil_of_endsNW h

/-- `strip` fixes a list with non-whitespace head and last characters. -/
theorem stripWS_eq_self {l : List Char} {c : Char} (h1 : l.head? = some c)
    (hc : pyWSb c = false) (h2 : endsNW l) : stripWS l = l := by
  rw [stripWS_of_endsNW h2]
  cases l with
  | nil => rfl
  | cons a s =>
    simp only [List.head?_cons, Option.some.injEq] at h1
    subst h1
    show List.dropWhile pyWSb (a :: s) = a :: s
    rw [List.dropWhile_cons, if_neg (by simp [hc])]

/-- Appending to the left preserves ending in non-whitespace. -/
theorem endsNW_append (l₁ : List Char) {l₂ : List Char} (h : endsNW l₂) :
    endsNW (l₁ ++ l₂) := by
  obtain ⟨c, hc, hcw⟩ := h
  refine ⟨c, ?_, hcw⟩
  rw [List.getLast?_append_of_ne_nil l₁ (endsNW.ne_nil ⟨c, hc, hcw⟩)]
  exact hc

/-- A nonempty stripped list ends in non-whitespace. -/
theorem endsNW_stripWS {l : List Char} (h : stripWS l ≠ []) :
    endsNW (stripWS l) := by
  have hl := List.rdropWhile_last_not pyWSb (stripLeftWS l) h
  refine ⟨(stripWS l).getLast h, List.getLast?_eq_getLast _ h, ?_⟩
  exact Bool.eq_false_iff.mpr hl

/-- A nonempty stripped list starts in non-whitespace. -/
theorem stripWS_head_not_ws {l : List Char} {c : Char}
    (h : (stripWS l).head? = some c) : pyWSb c = false := by
  have hpre : stripWS l <+: stripLeftWS l :=
    List.rdropWhile_prefix pyWSb (stripLeftWS l)
  exact head?_dropWhile_not pyWSb l c (head?_mono hpre h)

/-- `takeRightL` yields a suffix. -/
theorem takeRightL_suffix (n : Nat) (l : List Char) : takeRightL n l <:+ l :=
  List.drop_suffix _ _

/-- `takeRightL` is length-bounded by `n`. -/
theorem takeRightL_length_le (n : Nat) (l : List Char) :
    (takeRightL n l).length ≤ n := by
  simp only [takeRightL, List.length_drop]
  omega

/-- Taking the last zero characters gives nothing. -/
theorem takeRightL_zero (l : List Char) : takeRightL 0 l = [] := by
  simp [takeRightL]

/-- The trailing `n` characters agree between a list and any suffix of
it with at least `n` characters. -/
theorem takeRightL_of_suffix {l₁ l₂ : List Char} {n : Nat} (h : l₁ <:+ l₂)
    (hn : n ≤ l₁.length) : takeRightL n l₁ = takeRightL n l₂ := by
  obtain ⟨t, rfl⟩ := h
  unfold takeRightL
  rw [List.length_append]
  have harith : t.length + l₁.length - n = t.length + (l₁.length - n) := by omega
  rw [harith, List.drop_append]

/-- Head of the remaining chunk output: whatever the loop emits next from
a buffer ending in non-whitespace is that buffer, possibly extended on
the right by appended paragraphs, then stripped. -/
theorem chunkAux_head (S O : Nat) :
    ∀ (ps : List (List Char)) (cur : List Char), endsNW cur →
    ∃ ext : List Char,
      (chunkAux S O ps cur).head? = some (stripWS (cur ++ ext)) ∧
      (ext = [] ∨ endsNW ext) := by
  intro ps
  induction ps with
  | nil =>
    intro cur hcur
    refine ⟨[], ?_, Or.inl rfl⟩
    simp only [chunkAux, if_neg (stripWS_ne_nil_of_endsNW hcur)]
    rw [List.append_nil]
    rfl
  | cons para ps ih =>
    intro cur hcur
    by_cases hp : stripWS para = []
    · simp only [chunkAux, if_pos hp]
      exact ih cur hcur
    · have hpe : endsNW (stripWS para) := endsNW_stripWS hp
      have hcne : cur ≠ [] := hcur.ne_nil
      by_cases hov : S < cur.length + (stripWS para).length
      · simp only [chunkAux, if_neg hp, if_pos hov, if_neg hcne]
        refine ⟨[], ?_, Or.inl rfl⟩
        rw [List.append_nil]
        rfl
      · simp only [chunkAux, if_neg hp, if_neg hov, if_neg hcne]
        obtain ⟨ext, hhead, hext⟩ := ih (cur ++ sepNN ++ stripWS para)
          (endsNW_append _ hpe)
        refine ⟨sepNN ++ stripWS para ++ ext, ?_, Or.inr ?_⟩
        · rw [hhead]
          have hassoc : cur ++ sepNN ++ stripWS para ++ ext =
              cur ++ (sepNN ++ stripWS para ++ ext) := by
            simp [List.append_assoc]
          rw [hassoc]
        · rcases hext with he | he
          · subst he
            rw [List.append_nil]
            exact endsNW_append sepNN hpe
          · exact endsNW_append _ he

/-- The relation between two consecutive emitted chunks: the first is a
stripped buffer `b` that ended in non-whitespace, and the second is the
trailing `O` characters of `b` joined to further non-empty material,
stripped. -/
def overlapRel (O : Nat) (c₁ c₂ : List Char) : Prop :=
  ∃ b rest, endsNW b ∧ rest ≠ [] ∧ endsNW rest ∧
    c₁ = stripWS b ∧ c₂ = stripWS (takeRightL O b ++ rest)

/-- Every two consecutive chunks produced by the loop stand in
`overlapRel`. -/
theorem chunkAux_chain (S O : Nat) :
    ∀ (ps : List (List Char)) (cur : List Char), (cur = [] ∨ endsNW cur) →
    List.Chain' (overlapRel O) (chunkAux S O ps cur) := by
  intro ps
  induction ps with
  | nil =>
    intro cur _
    by_cases hs : stripWS cur = []
    · simp only [chunkAux, if_pos hs]
      exact List.chain'_nil
    · simp only [chunkAux, if_neg hs]
      exact List.chain'_singleton _
  | cons para ps ih =>
    intro cur hcur
    by_cases hp : stripWS para = []
    · simp only [chunkAux, if_pos hp]
      exact ih cur hcur
    · have hpe : endsNW (stripWS para) := endsNW_stripWS hp
      by_cases hov : S < cur.length + (stripWS para).length
      · rcases hcur with hce | hcne
        · subst hce
          simp only [chunkAux, if_neg hp, if_pos hov, if_pos rfl]
          exact ih _ (Or.inr hpe)
        · have hcne' : cur ≠ [] := hcne.ne_nil
          simp only [chunkAux, if_neg hp, if_pos hov, if_neg hcne']
          have hnbE : endsNW
              (if 0 < O then takeRightL O cur ++ sepNN ++ stripWS para
               else stripWS para) := by
            split
            · exact endsNW_append _ hpe
            · exact hpe
          refine List.chain'_cons'.mpr ⟨?_, ih _ (Or.inr hnbE)⟩
          intro y hy
          obtain ⟨ext, hhead, hext⟩ := chunkAux_head S O ps _ hnbE
          rw [hhead] at hy
          simp only [Option.mem_def, Option.some.injEq] at hy
          subst hy
          have hrest : ∀ t : List Char, (t = [] ∨ endsNW t) →
              endsNW (sepNN ++ stripWS para ++ t) := by
            intro t ht
            rcases ht with ht | ht
            · subst ht
              rw [List.append_nil]
              exact endsNW_append sepNN hpe
            · exact endsNW_append _ ht
          by_cases hO : 0 < O
          · rw [if_pos hO]
            refine ⟨cur, sepNN ++ stripWS para ++ ext, hcne, by simp [sepNN],
              hrest ext hext, rfl, ?_⟩
            have hassoc : takeRightL O cur ++ sepNN ++ stripWS para ++ ext =
                takeRightL O cur ++ (sepNN ++ stripWS para ++ ext) := by
              simp [List.append_assoc]
            rw [hassoc]
          · rw [if_neg hO]
            refine ⟨cur, stripWS para ++ ext, hcne, ?_, ?_, rfl, ?_⟩
            · intro he
              exact hp (List.append_eq_nil.mp he).1
            · rcases hext with he | he
              · subst he
                rw [List.append_nil]
                exact hpe
              · exact endsNW_append _ he
            · have hO0 : O = 0 := by omega
              subst hO0
              rw [takeRightL_zero, List.nil_append]
      · rcases hcur with hce | hcne
        · subst hce
          simp only [chunkAux, if_neg hp, if_neg hov, if_pos rfl]
          exact ih _ (Or.inr hpe)
        · simp only [chunkAux, if_neg hp, if_neg hov, if_neg hcne.ne_nil]
          exact ih _ (Or.inr (endsNW_append _ hpe))

/-- From `overlapRel` to the overlap-prefix property, under the amended
hypotheses: the overlap window fits inside the previous chunk content
and starts with a non-whitespace character. -/
theorem overlapRel_imp (O : Nat) {c₁ c₂ : List Char} (hR : overlapRel O c₁ c₂)
    (hO : O ≤ c₁.length) {d : Char} {ds : List Char}
    (hds : takeRightL O c₁ = d :: ds) (hdw : pyWSb d = false) :
    takeRightL O c₁ <+: c₂ := by
  obtain ⟨b, rest, hbe, hrne, hre, rfl, rfl⟩ := hR
  have hsuf : stripWS b <:+ b := stripWS_suffix_of_endsNW hbe
  have htr : takeRightL O (stripWS b) = takeRightL O b :=
    takeRightL_of_suffix hsuf hO
  rw [htr] at hds ⊢
  have hh1 : (takeRightL O b ++ rest).head? = some d := by
    rw [hds]
    rfl
  have hfix : stripWS (takeRightL O b ++ rest) = takeRightL O b ++ rest :=
    stripWS_eq_self hh1 hdw (endsNW_append _ hre)
  rw [hfix]
  exact List.prefix_append _ _

/-- C5 (amended): for chunk size S and overlap O (O < S), each chunk
after the first begins with exactly the trailing O characters of the
previous chunk's content, PROVIDED the previous content is at least O
characters long and those trailing O characters start with a
non-whitespace character.  (The seeded overlap is taken from the
pre-strip buffer; when it starts with whitespace — e.g. it straddles a
blank-line joint — the leading whitespace is stripped away with the
next chunk, as the counterexample shows.) -/
theorem C5_overlap (S O : Nat) (text : List Char) (hSO : O < S) (i : Nat)
    (h : i + 1 < (chunkContents S O text).length)
    (hO : O ≤ ((chunkContents S O text).get ⟨i, by omega⟩).length)
    (hhd : ∃ d ds,
      takeRightL O ((chunkContents S O text).get ⟨i, by omega⟩) = d :: ds ∧
        pyWSb d = false) :
    takeRightL O ((chunkContents S O text).get ⟨i, by omega⟩) <+:
      (chunkContents S O text).get ⟨i + 1, h⟩ := by
  obtain ⟨d, ds, hds, hdw⟩ := hhd
  have hch : List.Chain' (overlapRel O) (chunkContents S O text) :=
    chunkAux_chain S O _ [] (Or.inl rfl)
  have hR := List.chain'_iff_get.mp hch i (by omega)
  exact overlapRel_imp O hR hO hds hdw

/-- The C5 witness document. -/
def C5_wtext : List Char := "abcde\n\nfghij\n\nklmno".toList

/-- Witness for C5 at a concrete document (S=10, O=3: the chunks are
"abcde\n\nfghij" and "hij\n\nklmno", and the second starts with "hij",
the trailing 3 characters of the first). -/
theorem C5_overlap_witness :
    takeRightL 3 ((chunkContents 10 3 C5_wtext).get ⟨0, by decide⟩) <+:
      (chunkContents 10 3 C5_wtext).get ⟨1, by decide⟩ :=
  C5_overlap 10 3 C5_wtext (by decide) 0 (by decide) (by decide)
    ⟨'h', ['i', 'j'], by decide, by decide⟩

/-- `strip` yields a contiguous substring. -/
theorem stripWS_substring (l : List Char) : stripWS l <:+: l := by
  have h1 : stripWS l <+: stripLeftWS l := List.rdropWhile_prefix pyWSb (stripLeftWS l)
  exact h1.isInfix.trans (stripLeftWS_suffix l).isInfix

/-- Appending on the right preserves the suffix relation. -/
theorem suffix_append_right {l₁ l₂ : List Char} (h : l₁ <:+ l₂) (t : List Char) :
    l₁ ++ t <:+ l₂ ++ t := by
  obtain ⟨u, rfl⟩ := h
  exact ⟨u, by simp [List.append_assoc]⟩

/-- The remaining normalized text contributed by the paragraphs still to
be processed: each stripped non-empty paragraph preceded by a blank
line. -/
def restNorm (ps : List (List Char)) : List Char :=
  sepJoin ((ps.map stripWS).filter fun p => !p.isEmpty)

/-- An all-whitespace paragraph contributes nothing. -/
theorem restNorm_cons_empty {para : List Char} (ps : List (List Char))
    (hp : stripWS para = []) : restNorm (para :: ps) = restNorm ps := by
  unfold restNorm
  simp [hp]

/-- A non-empty paragraph contributes a blank line and its text. -/
theorem restNorm_cons_ne {para : List Char} (ps : List (List Char))
    (hp : stripWS para ≠ []) :
    restNorm (para :: ps) = sepNN ++ stripWS para ++ restNorm ps := by
  unfold restNorm
  rw [List.map_cons, List.filter_cons, if_pos (by simp [List.isEmpty_iff, hp])]
  rfl

/-- Every chunk the loop will emit from a buffer that is a suffix of the
text consumed so far is a stripped buffer and a contiguous substring of
the consumed text followed by the normalized remainder. -/
theorem chunkAux_infix (S O : Nat) :
    ∀ (ps : List (List Char)) (cur acc : List Char), cur <:+ acc →
    ∀ c ∈ chunkAux S O ps cur,
      (∃ b, c = stripWS b) ∧ c <:+: (acc ++ restNorm ps) := by
  intro ps
  induction ps with
  | nil =>
    intro cur acc hsub c hc
    by_cases hs : stripWS cur = []
    · simp [chunkAux, hs] at hc
    · simp only [chunkAux, if_neg hs, List.mem_singleton] at hc
      subst hc
      refine ⟨⟨cur, rfl⟩, ?_⟩
      exact ((stripWS_substring cur).trans hsub.isInfix).trans
        (List.prefix_append acc (restNorm [])).isInfix
  | cons para ps ih =>
    intro cur acc hsub c hc
    by_cases hp : stripWS para = []
    · simp only [chunkAux, if_pos hp] at hc
      rw [restNorm_cons_empty ps hp]
      exact ih cur acc hsub c hc
    · have hkey : acc ++ restNorm (para :: ps) =
          (acc ++ sepNN ++ stripWS para) ++ restNorm ps := by
        rw [restNorm_cons_ne ps hp]
        simp [List.append_assoc]
      by_cases hov : S < cur.length + (stripWS para).length
      · by_cases hce : cur = []
        · subst hce
          simp only [chunkAux, if_neg hp, if_pos hov, if_pos rfl] at hc
          rw [hkey]
          exact ih (stripWS para) (acc ++ sepNN ++ stripWS para)
            (List.suffix_append _ _) c hc
        · simp only [chunkAux, if_neg hp, if_pos hov, if_neg hce,
            List.mem_cons] at hc
          rcases hc with hc1 | hc2
          · subst hc1
            refine ⟨⟨cur, rfl⟩, ?_⟩
            exact ((stripWS_substring cur).trans hsub.isInfix).trans
              (List.prefix_append acc _).isInfix
          · rw [hkey]
            by_cases hO : 0 < O
            · rw [if_pos hO] at hc2
              refine ih _ _ ?_ c hc2
              have h1 : takeRightL O cur <:+ acc := (takeRightL_suffix O cur).trans hsub
              exact suffix_append_right (suffix_append_right h1 sepNN) (stripWS para)
            · rw [if_neg hO] at hc2
              exact ih _ _ (List.suffix_append _ _) c hc2
      · by_cases hce : cur = []
        · subst hce
          simp only [chunkAux, if_neg hp, if_neg hov, if_pos rfl] at hc
          rw [hkey]
          exact ih _ _ (List.suffix_append _ _) c hc
        · simp only [chunkAux, if_neg hp, if_neg hov, if_neg hce] at hc
          rw [hkey]
          exact ih _ _ (suffix_append_right (suffix_append_right hsub sepNN)
            (stripWS para)) c hc

/-- A substring of `"\n\n" ++ nt` that does not start with whitespace is
a substring of `nt`. -/
theorem infix_drop_sep {c nt : List Char}
    (hhd : ∀ x ∈ c.head?, pyWSb x = false) (h : c <:+: sepNN ++ nt) :
    c <:+: nt := by
  cases c with
  | nil => exact List.nil_infix
  | cons d ds =>
    have hdw : pyWSb d = false := hhd d rfl
    obtain ⟨s, t, hst⟩ := h
    cases s with
    | nil =>
      simp only [List.nil_append, sepNN, List.cons_append] at hst
      injection hst with h1 h2
      rw [h1] at hdw
      simp [pyWSb] at hdw
    | cons a s1 =>
      cases s1 with
      | nil =>
        simp only [sepNN, List.cons_append, List.nil_append,
          List.singleton_append] at hst
        injection hst with h1 hst2
        injection hst2 with h2 h3
        rw [h2] at hdw
        simp [pyWSb] at hdw
      | cons b s2 =>
        simp only [sepNN, List.cons_append] at hst
        injection hst with h1 hst2
        injection hst2 with h2 hst3
        refine ⟨s2, t, ?_⟩
        simpa using hst3

/-- Length invariant of the chunking loop: every emitted chunk is at
most `max (S + 2) (O + 2 + L)` characters, where `L` bounds the
stripped paragraph lengths (the `+2` is the blank-line joiner that the
size check of the source does not count). -/
theorem chunkAux_length (S O L : Nat) :
    ∀ (ps : List (List Char)) (cur : List Char),
      (∀ p ∈ ps, (stripWS p).length ≤ L) →
      cur.length ≤ max (S + 2) (O + 2 + L) →
      ∀ c ∈ chunkAux S O ps cur, c.length ≤ max (S + 2) (O + 2 + L) := by
  intro ps
  induction ps with
  | nil =>
    intro cur _ hcur c hc
    by_cases hs : stripWS cur = []
    · simp [chunkAux, hs] at hc
    · simp only [chunkAux, if_neg hs, List.mem_singleton] at hc
      subst hc
      exact le_trans (List.IsInfix.length_le (stripWS_substring cur)) hcur
  | cons para ps ih =>
    intro cur hps hcur c hc
    have hpL : (stripWS para).length ≤ L := hps para (List.mem_cons_self para ps)
    have hps' : ∀ p ∈ ps, (stripWS p).length ≤ L := fun p hp =>
      hps p (List.mem_cons_of_mem para hp)
    have hLmax : L ≤ max (S + 2) (O + 2 + L) :=
      le_trans (by omega) (le_max_right (S + 2) (O + 2 + L))
    by_cases hp : stripWS para = []
    · simp only [chunkAux, if_pos hp] at hc
      exact ih cur hps' hcur c hc
    · by_cases hov : S < cur.length + (stripWS para).length
      · by_cases hce : cur = []
        · subst hce
          simp only [chunkAux, if_neg hp, if_pos hov, if_pos rfl] at hc
          exact ih _ hps' (le_trans hpL hLmax) c hc
        · simp only [chunkAux, if_neg hp, if_pos hov, if_neg hce,
            List.mem_cons] at hc
          rcases hc with hc1 | hc2
          · subst hc1
            exact le_trans (List.IsInfix.length_le (stripWS_substring cur)) hcur
          · refine ih _ hps' ?_ c hc2
            by_cases hO : 0 < O
            · rw [if_pos hO]
              have h1 : (takeRightL O cur).length ≤ O := takeRightL_length_le O cur
              have h2 : (takeRightL O cur ++ sepNN ++ stripWS para).length ≤
                  O + 2 + L := by
                simp only [List.length_append, sepNN, List.length_cons,
                  List.length_nil]
                omega
              exact le_trans h2 (le_max_right _ _)
            · rw [if_neg hO]
              exact le_trans hpL hLmax
      · by_cases hce : cur = []
        · subst hce
          simp only [chunkAux, if_neg hp, if_neg hov, if_pos rfl] at hc
          refine ih _ hps' ?_ c hc
          refine le_trans ?_ (le_max_left (S + 2) (O + 2 + L))
          simp only [List.length_nil] at hov
          omega
        · simp only [chunkAux, if_neg hp, if_neg hov, if_neg hce] at hc
          refine ih _ hps' ?_ c hc
          refine le_trans ?_ (le_max_left (S + 2) (O + 2 + L))
          simp only [List.length_append, sepNN, List.length_cons, List.length_nil]
          omega

/-- Members bound their fold-max. -/
theorem le_foldr_max : ∀ (l : List Nat) (x : Nat), x ∈ l → x ≤ l.foldr max 0
  | [], x, h => absurd h (List.not_mem_nil x)
  | a :: l, x, h => by
    rcases List.mem_cons.mp h with rfl | h2
    · exact le_max_left _ _
    · exact le_trans (le_foldr_max l x h2) (le_max_right _ _)

/-- Every stripped paragraph is bounded by the document maximum. -/
theorem paraLen_le (text : List Char) :
    ∀ para ∈ splitParas (stripWS text),
      (stripWS para).length ≤ maxParaLen text := by
  intro para hpara
  by_cases hp : stripWS para = []
  · simp [hp]
  · apply le_foldr_max
    refine List.mem_map_of_mem List.length ?_
    unfold parasOf
    rw [List.mem_filter]
    exact ⟨List.mem_map_of_mem stripWS hpara, by simp [List.isEmpty_iff, hp]⟩

/-- Unfolded form of `normText` on a non-empty paragraph list. -/
theorem normText_eq (text : List Char) (q : List Char) (qs : List (List Char))
    (h : parasOf text = q :: qs) : normText text = q ++ sepJoin qs := by
  unfold normText
  rw [h]

/-- The remaining-text view of the whole document is a blank line plus
the normalized text, when the document has a paragraph at all. -/
theorem restNorm_eq_sep (text : List Char) (q : List Char) (qs : List (List Char))
    (h : parasOf text = q :: qs) :
    restNorm (splitParas (stripWS text)) = sepNN ++ normText text := by
  have h2 : restNorm (splitParas (stripWS text)) = sepJoin (q :: qs) := by
    unfold restNorm
    unfold parasOf at h
    rw [h]
  rw [h2, normText_eq text q qs h]
  show sepNN ++ q ++ sepJoin qs = sepNN ++ (q ++ sepJoin qs)
  simp [List.append_assoc]

/-- Degenerate case: a document with no non-empty paragraph. -/
theorem restNorm_eq_nil (text : List Char) (h : parasOf text = []) :
    restNorm (splitParas (stripWS text)) = [] := by
  unfold restNorm
  unfold parasOf at h
  rw [h]
  rfl

/-- Contents of the produced `DocumentChunk`s are exactly the emitted
buffer contents, in order. -/
theorem chunk_text_contents (S O : Nat) (text : List Char) (src : String) :
    (chunk_text S O text src).map (fun c => c.content) = chunkContents S O text := by
  unfold chunk_text
  rw [List.map_map]
  have hcomp : ((fun (c : DocumentChunk) => c.content) ∘ fun p : Nat × List Char =>
      ({ content := p.2, source := src, chunk_id := p.1 } : DocumentChunk)) =
      Prod.snd := rfl
  rw [hcomp, List.enum_map_snd]

/-- C6 (amended): every `DocumentChunk` produced from a document has
content that is a contiguous substring of the NORMALIZED document text
(stripped non-empty paragraphs re-joined by blank lines) — not of the
raw text — and its length is bounded by `max (S+2) (O+2+L)`, where `L`
is the longest stripped paragraph length, rather than by the chunk size
`S` itself. -/
theorem C6_chunk_bounds (S O : Nat) (text : List Char) (src : String) :
    ∀ ch ∈ chunk_text S O text src,
      ch.content <:+: normText text ∧
      ch.content.length ≤ max (S + 2) (O + 2 + maxParaLen text) := by
  intro ch hch
  have hcm : ch.content ∈ chunkContents S O text := by
    have hm : ch.content ∈ (chunk_text S O text src).map (fun c => c.content) :=
      List.mem_map_of_mem _ hch
    rwa [chunk_text_contents] at hm
  constructor
  · obtain ⟨⟨b, hb⟩, hinf⟩ := chunkAux_infix S O (splitParas (stripWS text)) [] []
      (List.suffix_refl []) ch.content hcm
    rw [List.nil_append] at hinf
    cases hq : parasOf text with
    | nil =>
      rw [restNorm_eq_nil text hq] at hinf
      have hnil : ch.content = [] := by
        simpa using List.IsInfix.sublist hinf
      rw [hnil]
      exact List.nil_infix
    | cons q qs =>
      rw [restNorm_eq_sep text q qs hq] at hinf
      refine infix_drop_sep ?_ hinf
      intro x hx
      rw [hb] at hx
      exact stripWS_head_not_ws hx
  · exact chunkAux_length S O (maxParaLen text) _ [] (paraLen_le text)
      (by simp) ch.content hcm

/-- The C6 witness chunk. -/
def C6_wchunk : DocumentChunk :=
  { content := "ab\n\ncd".toList
    source := "doc.md"
    chunk_id := 0 }

/-- Witness for C6 at a concrete document. -/
theorem C6_chunk_bounds_witness :
    C6_wchunk.content <:+: normText "ab\n \ncd".toList ∧
    C6_wchunk.content.length ≤ max (5 + 2) (1 + 2 + maxParaLen "ab\n \ncd".toList) :=
  C6_chunk_bounds 5 1 "ab\n \ncd".toList "doc.md" C6_wchunk (by decide)
